import Mathlib

/-!
Shallow embedding of the categorical distribution of the `prob` repository
(`src/distribution/categorical.rs`).  Floating-point (`f64`) arithmetic is
modelled by exact rational arithmetic; the single place where IEEE special
values matter (the `entropy` fold, where `0.0 * ln 0.0` is NaN) is modelled
with `Option ℝ`, `none` standing for NaN.
-/

set_option autoImplicit false

namespace Prob

/-- The `Categorical` struct: number of categories `k` and mass vector `p`. -/
structure Categorical where
  k : ℕ
  p : List ℚ
deriving DecidableEq, Repr

/-- The `EPSILON` constant of `Categorical::new`. -/
def EPSILON : ℚ := 1 / 1000000000000

/-- Left fold with `+` starting at `0`, as the Rust `fold(0.0, |a, b| a + b)`. -/
def listSum (l : List ℚ) : ℚ := l.foldl (· + ·) 0

/-- The validation loop of `Categorical::new`: walks the vector keeping a
running sum, breaking out with `in_unit = false` at the first entry outside
`[0, 1]`.  Returns the pair `(in_unit, sum)`. -/
def pvCheck : List ℚ → ℚ → Bool × ℚ
  | [], sum => (true, sum)
  | x :: xs, sum => if x < 0 ∨ 1 < x then (false, sum) else pvCheck xs (sum + x)

/-- The `is_probability_vector` condition checked by `should!` in
`Categorical::new`: all entries in the unit interval and the running sum
within `EPSILON` of `1`. -/
def is_probability_vector (p : List ℚ) : Bool :=
  let r := pvCheck p 0
  r.1 && decide (|r.2 - 1| ≤ EPSILON)

/-- Constructor `Categorical::new`: fail-fast validation modelled by `Option`; on success
the struct stores `p.len()` and a copy of the mass vector. -/
def new (p : List ℚ) : Option Categorical :=
  if is_probability_vector p then some ⟨p.length, p⟩ else none

/-- A `Categorical` value as produced by a successful `Categorical::new`. -/
def Valid (d : Categorical) : Prop :=
  d.k = d.p.length ∧ is_probability_vector d.p = true

instance (d : Categorical) : Decidable (Valid d) := by
  unfold Valid; infer_instance

/-- Function `cdf`: `0` below the support, `1` from the last support value on, and a
prefix sum of the masses otherwise.  `x as usize` on a non-negative `f64`
truncates, which is the floor. -/
def cdf (d : Categorical) (x : ℚ) : ℚ :=
  if x < 0 then 0
  else
    let n : ℕ := (⌊x⌋).toNat
    if d.k - 1 ≤ n then 1
    else listSum (d.p.take (n + 1))

/-- How a query of the Rust code can fail: a `should!` precondition violation
(an `OutOfRange` condition) or an internal abort (`unwrap` on `None`,
`unreachable!`, an out-of-bounds index). -/
inductive FailKind where
  | outOfRange
  | aborted
deriving DecidableEq, Repr

/-- Index search `position(...)`: index of the first element satisfying the
predicate. -/
def firstIdx (pred : ℚ → Bool) : List ℚ → Option ℕ
  | [] => none
  | x :: xs => if pred x then some 0 else (firstIdx pred xs).map (· + 1)

/-- The scan loop of `inv_cdf`: running sum over `p`, returning the current
index as soon as `sum >= p || sum == 1.0`, and `k - 1` on fallthrough. -/
def invCdfAux (k : ℕ) (q : ℚ) : ℕ → ℚ → List ℚ → ℕ
  | _, _, [] => k - 1
  | i, acc, x :: xs =>
    let s := acc + x
    if q ≤ s ∨ s = 1 then i else invCdfAux k q (i + 1) s xs

/-- Function `inv_cdf`: `should!(0.0 <= p && p <= 1.0)` modelled as an `outOfRange`
error; `p == 0.0` returns the first strictly positive index (`unwrap`
modelled as an `aborted` error when there is none); otherwise the scan loop
runs. -/
def invCdf (d : Categorical) (q : ℚ) : Except FailKind ℕ :=
  if ¬(0 ≤ q ∧ q ≤ 1) then Except.error FailKind.outOfRange
  else if q = 0 then
    match firstIdx (fun x => decide (0 < x)) d.p with
    | some i => Except.ok i
    | none => Except.error FailKind.aborted
  else Except.ok (invCdfAux d.k q 0 0 d.p)

/-- The scan loop of `median`: running sum, `(2 * i - 1) as f64 / 2.0` when
the sum hits `0.5` exactly (with `usize` subtraction), `i` when it exceeds
`0.5`; `none` models the `unreachable!()` abort on fallthrough. -/
def medianLoop : ℕ → ℚ → List ℚ → Option ℚ
  | _, _, [] => none
  | i, acc, x :: xs =>
    let s := acc + x
    if s = 1 / 2 then some (((2 * i - 1 : ℕ) : ℚ) / 2)
    else if 1 / 2 < s then some (i : ℚ)
    else medianLoop (i + 1) s xs

/-- Function `median`: three-way branch on `p[0]` (`none` models the out-of-bounds
abort on an empty vector), then the scan loop over the whole vector. -/
def median (d : Categorical) : Option ℚ :=
  match d.p with
  | [] => none
  | p0 :: _ =>
    if 1 / 2 < p0 then some 0
    else if p0 = 1 / 2 then some (1 / 2)
    else medianLoop 0 0 d.p

/-- Variant of the `median` scan loop computing `2 * i - 1` in `ℤ` instead of
truncated `ℕ` subtraction; it agrees with `medianLoop` exactly when the
subtraction never underflows. -/
def medianLoopInt : ℕ → ℚ → List ℚ → Option ℚ
  | _, _, [] => none
  | i, acc, x :: xs =>
    let s := acc + x
    if s = 1 / 2 then some (((2 * (i : ℤ) - 1 : ℤ) : ℚ) / 2)
    else if 1 / 2 < s then some (i : ℚ)
    else medianLoopInt (i + 1) s xs

/-- The `median` function with the underflow-free loop. -/
def medianInt (d : Categorical) : Option ℚ :=
  match d.p with
  | [] => none
  | p0 :: _ =>
    if 1 / 2 < p0 then some 0
    else if p0 = 1 / 2 then some (1 / 2)
    else medianLoopInt 0 0 d.p

/-- The loop of `modes`: `if p == max { modes.push(i) }` then
`if p > max { max = p; modes = vec![i] }`. -/
def modesAux : ℕ → ℚ → List ℕ → List ℚ → List ℕ
  | _, _, ms, [] => ms
  | i, mx, ms, x :: xs =>
    let ms2 := if x = mx then ms ++ [i] else ms
    if mx < x then modesAux (i + 1) x [i] xs
    else modesAux (i + 1) mx ms2 xs

/-- Function `modes`: scan with initial `max = 0.0` and an empty mode list. -/
def modes (d : Categorical) : List ℕ := modesAux 0 0 [] d.p

/-- One term `p * p.ln()` of the `entropy` fold under IEEE semantics:
`ln` of a non-positive number is `-inf` or NaN, and `0.0 * -inf` is NaN, so
any non-positive mass makes the term NaN (`none`). -/
noncomputable def logTerm (q : ℚ) : Option ℝ :=
  if q ≤ 0 then none else some ((q : ℝ) * Real.log (q : ℝ))

/-- IEEE addition on possibly-NaN values: NaN absorbs. -/
def addOpt (a b : Option ℝ) : Option ℝ :=
  match a, b with
  | some x, some y => some (x + y)
  | _, _ => none

/-- Function `entropy`: the fold `-self.p.iter().fold(0.0, |sum, p| sum + p * p.ln())`, with no
special case for zero masses. -/
noncomputable def entropy (d : Categorical) : Option ℝ :=
  Option.map (fun s => -s) (d.p.foldl (fun acc q => addOpt acc (logTerm q)) (some 0))

/-- A random source, modelled as the list of uniform draws it will yield. -/
structure RandomSource where
  draws : List ℚ
deriving DecidableEq, Repr

/-- Reading `source.read::<f64>()`: pop one draw; `none` when the source is spent. -/
def sourceRead (s : RandomSource) : Option (ℚ × RandomSource) :=
  match s.draws with
  | [] => none
  | u :: rest => some (u, ⟨rest⟩)

/-- Function `sample`: one read from the source, passed straight to `inv_cdf`. -/
def sample (d : Categorical) (s : RandomSource) : Option (Except FailKind ℕ × RandomSource) :=
  match sourceRead s with
  | none => none
  | some (u, s2) => some (invCdf d u, s2)

/-- Running cumulative sums of a mass list, starting from accumulator `acc`:
entry `i` is `acc` plus the sum of the first `i + 1` masses. -/
def cumsums : ℚ → List ℚ → List ℚ
  | _, [] => []
  | acc, x :: xs => (acc + x) :: cumsums (acc + x) xs

/-- Cumulative mass of outcomes `0..=i`. -/
def csum (d : Categorical) (i : ℕ) : ℚ := (cumsums 0 d.p).getD i 0

/-! ### Sums -/

lemma foldl_add_eq (l : List ℚ) : ∀ a : ℚ, l.foldl (· + ·) a = a + l.foldl (· + ·) 0 := by
  induction l with
  | nil => intro a; simp
  | cons x xs ih =>
    intro a
    simp only [List.foldl_cons]
    rw [ih (a + x), ih (0 + x)]
    ring

lemma listSum_nil : listSum [] = 0 := rfl

lemma listSum_cons (x : ℚ) (xs : List ℚ) : listSum (x :: xs) = x + listSum xs := by
  simp only [listSum, List.foldl_cons]
  rw [foldl_add_eq, zero_add]

lemma listSum_nonneg {l : List ℚ} (h : ∀ x ∈ l, 0 ≤ x) : 0 ≤ listSum l := by
  induction l with
  | nil => simp [listSum_nil]
  | cons x xs ih =>
    rw [listSum_cons]
    have hx := h x (List.mem_cons_self x xs)
    have hxs := ih fun y hy => h y (List.mem_cons_of_mem x hy)
    linarith

lemma listSum_take_le {l : List ℚ} (h : ∀ x ∈ l, 0 ≤ x) (n : ℕ) :
    listSum (l.take n) ≤ listSum l := by
  induction l generalizing n with
  | nil => simp [listSum_nil]
  | cons x xs ih =>
    match n with
    | 0 =>
      simp only [List.take_zero, listSum_nil, listSum_cons]
      have hx := h x (List.mem_cons_self x xs)
      have hxs := listSum_nonneg fun y hy => h y (List.mem_cons_of_mem x hy)
      linarith
    | n + 1 =>
      simp only [List.take_succ_cons, listSum_cons]
      have := ih (fun y hy => h y (List.mem_cons_of_mem x hy)) n
      linarith

lemma listSum_take_mono {l : List ℚ} (h : ∀ x ∈ l, 0 ≤ x) {m n : ℕ} (hmn : m ≤ n) :
    listSum (l.take m) ≤ listSum (l.take n) := by
  induction l generalizing m n with
  | nil => simp [listSum_nil]
  | cons x xs ih =>
    match m, n with
    | 0, n =>
      simp only [List.take_zero, listSum_nil]
      exact listSum_nonneg fun y hy => h y (List.mem_of_mem_take hy)
    | m + 1, n + 1 =>
      simp only [List.take_succ_cons, listSum_cons]
      have := ih (fun y hy => h y (List.mem_cons_of_mem x hy)) (Nat.succ_le_succ_iff.mp hmn)
      linarith

/-! ### The construction check -/

lemma pvCheck_run {p : List ℚ} (h : ∀ x ∈ p, 0 ≤ x ∧ x ≤ 1) (s : ℚ) :
    pvCheck p s = (true, s + listSum p) := by
  induction p generalizing s with
  | nil => simp [pvCheck, listSum_nil]
  | cons x xs ih =>
    have hx := h x (List.mem_cons_self x xs)
    have hcond : ¬(x < 0 ∨ 1 < x) := by
      push_neg
      exact ⟨hx.1, hx.2⟩
    rw [pvCheck, if_neg hcond, ih fun y hy => h y (List.mem_cons_of_mem x hy),
      listSum_cons]
    rw [add_assoc]

lemma pvCheck_fst_true {p : List ℚ} {s : ℚ} (h : (pvCheck p s).1 = true) :
    ∀ x ∈ p, 0 ≤ x ∧ x ≤ 1 := by
  induction p generalizing s with
  | nil => simp
  | cons x xs ih =>
    rw [pvCheck] at h
    by_cases hc : x < 0 ∨ 1 < x
    · rw [if_pos hc] at h
      simp at h
    · rw [if_neg hc] at h
      push_neg at hc
      intro y hy
      rcases List.mem_cons.mp hy with hy | hy
      · exact hy ▸ ⟨hc.1, hc.2⟩
      · exact ih h y hy

lemma is_probability_vector_iff (p : List ℚ) :
    is_probability_vector p = true ↔
      (∀ x ∈ p, 0 ≤ x ∧ x ≤ 1) ∧ |listSum p - 1| ≤ EPSILON := by
  constructor
  · intro h
    simp only [is_probability_vector, Bool.and_eq_true, decide_eq_true_eq] at h
    have hall := pvCheck_fst_true h.1
    refine ⟨hall, ?_⟩
    have := h.2
    rwa [pvCheck_run hall 0, zero_add] at this
  · rintro ⟨hall, hsum⟩
    simp only [is_probability_vector, Bool.and_eq_true, decide_eq_true_eq]
    rw [pvCheck_run hall 0]
    exact ⟨rfl, by rwa [zero_add]⟩

/-! ### Facts about valid distributions -/

lemma Valid.k_eq {d : Categorical} (h : Valid d) : d.k = d.p.length := h.1

lemma Valid.mem_nonneg {d : Categorical} (h : Valid d) : ∀ x ∈ d.p, 0 ≤ x :=
  fun x hx => (((is_probability_vector_iff d.p).mp h.2).1 x hx).1

lemma Valid.mem_le_one {d : Categorical} (h : Valid d) : ∀ x ∈ d.p, x ≤ 1 :=
  fun x hx => (((is_probability_vector_iff d.p).mp h.2).1 x hx).2

lemma Valid.sum_near_one {d : Categorical} (h : Valid d) :
    |listSum d.p - 1| ≤ EPSILON :=
  ((is_probability_vector_iff d.p).mp h.2).2

lemma Valid.sum_lower {d : Categorical} (h : Valid d) :
    1 - EPSILON ≤ listSum d.p := by
  have := abs_le.mp h.sum_near_one
  linarith [this.1]

lemma Valid.sum_upper {d : Categorical} (h : Valid d) :
    listSum d.p ≤ 1 + EPSILON := by
  have := abs_le.mp h.sum_near_one
  linarith [this.2]

lemma Valid.ne_nil {d : Categorical} (h : Valid d) : d.p ≠ [] := by
  intro hnil
  have := h.sum_near_one
  rw [hnil] at this
  simp only [listSum_nil] at this
  rw [EPSILON] at this
  rw [abs_le] at this
  linarith [this.1]

lemma Valid.k_pos {d : Categorical} (h : Valid d) : 0 < d.k := by
  rw [h.k_eq]
  exact List.length_pos.mpr h.ne_nil

lemma listSum_eq_zero {l : List ℚ} (h : ∀ x ∈ l, x = 0) : listSum l = 0 := by
  induction l with
  | nil => exact listSum_nil
  | cons y ys ih =>
    rw [listSum_cons, h y (List.mem_cons_self y ys),
      ih fun x hx => h x (List.mem_cons_of_mem y hx)]
    ring

lemma Valid.exists_pos {d : Categorical} (h : Valid d) : ∃ x ∈ d.p, 0 < x := by
  by_contra hcon
  push_neg at hcon
  have hsum : listSum d.p = 0 :=
    listSum_eq_zero fun x hx => le_antisymm (hcon x hx) (h.mem_nonneg x hx)
  have := h.sum_lower
  rw [hsum, EPSILON] at this
  linarith

/-! ### Cumulative sums -/

lemma cumsums_length (l : List ℚ) : ∀ a : ℚ, (cumsums a l).length = l.length := by
  induction l with
  | nil => intro a; rfl
  | cons x xs ih =>
    intro a
    simp only [cumsums, List.length_cons, ih]

lemma cumsums_getD (l : List ℚ) :
    ∀ (a : ℚ) (i : ℕ), i < l.length →
      (cumsums a l).getD i 0 = a + listSum (l.take (i + 1)) := by
  induction l with
  | nil => intro a i hi; simp at hi
  | cons x xs ih =>
    intro a i hi
    match i with
    | 0 =>
      simp only [cumsums, List.getD_cons_zero, List.take_succ_cons, List.take_zero,
        listSum_cons, listSum_nil]
      ring
    | i + 1 =>
      simp only [cumsums, List.getD_cons_succ, List.take_succ_cons, listSum_cons]
      rw [ih (a + x) i (by simpa using hi)]
      ring

lemma csum_eq {d : Categorical} {i : ℕ} (hi : i < d.p.length) :
    csum d i = listSum (d.p.take (i + 1)) := by
  rw [csum, cumsums_getD d.p 0 i hi, zero_add]

lemma csum_mono {d : Categorical} (hd : Valid d) {i j : ℕ} (hij : i ≤ j)
    (hj : j < d.p.length) : csum d i ≤ csum d j := by
  rw [csum_eq (lt_of_le_of_lt hij hj), csum_eq hj]
  exact listSum_take_mono hd.mem_nonneg (Nat.succ_le_succ hij)

lemma csum_last {d : Categorical} (hd : Valid d) :
    csum d (d.p.length - 1) = listSum d.p := by
  have hlen : 0 < d.p.length := List.length_pos.mpr hd.ne_nil
  rw [csum_eq (Nat.sub_lt hlen Nat.one_pos)]
  have : d.p.length - 1 + 1 = d.p.length := Nat.succ_pred_eq_of_pos hlen
  rw [this, List.take_length]

/-! ### First-index search -/

lemma firstIdx_eq_none_iff (pred : ℚ → Bool) (l : List ℚ) :
    firstIdx pred l = none ↔ ∀ i, i < l.length → pred (l.getD i 0) = false := by
  induction l with
  | nil => simp [firstIdx]
  | cons x xs ih =>
    rw [firstIdx]
    by_cases hx : pred x
    · rw [if_pos hx]
      simp only [List.length_cons]
      constructor
      · intro h; exact absurd h (by simp)
      · intro h
        have := h 0 (Nat.succ_pos _)
        rw [List.getD_cons_zero] at this
        rw [hx] at this
        exact absurd this (by simp)
    · rw [if_neg hx]
      simp only [Option.map_eq_none', ih, List.length_cons]
      constructor
      · intro h i hi
        match i with
        | 0 => simpa using Bool.eq_false_iff.mpr hx
        | i + 1 =>
          rw [List.getD_cons_succ]
          exact h i (Nat.succ_lt_succ_iff.mp hi)
      · intro h i hi
        have := h (i + 1) (Nat.succ_lt_succ hi)
        rwa [List.getD_cons_succ] at this

lemma firstIdx_eq_some_iff (pred : ℚ → Bool) (l : List ℚ) :
    ∀ j : ℕ, firstIdx pred l = some j ↔
      j < l.length ∧ pred (l.getD j 0) = true ∧
        ∀ i, i < j → pred (l.getD i 0) = false := by
  induction l with
  | nil => intro j; simp [firstIdx]
  | cons x xs ih =>
    intro j
    rw [firstIdx]
    by_cases hx : pred x
    · rw [if_pos hx]
      match j with
      | 0 =>
        simp only [Option.some.injEq, List.length_cons, List.getD_cons_zero]
        constructor
        · intro _; exact ⟨Nat.succ_pos _, hx, fun i hi => absurd hi (Nat.not_lt_zero i)⟩
        · intro _; trivial
      | j + 1 =>
        simp only [Option.some.injEq, List.length_cons, List.getD_cons_succ]
        constructor
        · intro h; exact absurd h (by simp)
        · rintro ⟨-, -, hlt⟩
          have := hlt 0 (Nat.succ_pos _)
          rw [List.getD_cons_zero] at this
          rw [hx] at this
          exact absurd this (by simp)
    · rw [if_neg hx]
      match j with
      | 0 =>
        simp only [List.length_cons, List.getD_cons_zero]
        constructor
        · intro h
          rcases Option.map_eq_some'.mp h with ⟨m, -, hm⟩
          exact absurd hm (by simp)
        · rintro ⟨-, hp, -⟩
          rw [hp] at hx
          exact absurd rfl hx
      | j + 1 =>
        simp only [List.length_cons, List.getD_cons_succ]
        constructor
        · intro h
          rcases Option.map_eq_some'.mp h with ⟨m, hm, hmj⟩
          rw [show m = j from by omega] at hm
          rcases (ih j).mp hm with ⟨h1, h2, h3⟩
          refine ⟨Nat.succ_lt_succ h1, h2, ?_⟩
          intro i hi
          match i with
          | 0 => simpa using Bool.eq_false_iff.mpr hx
          | i + 1 =>
            rw [List.getD_cons_succ]
            exact h3 i (by omega)
        · rintro ⟨h1, h2, h3⟩
          have hxs : firstIdx pred xs = some j := by
            rw [ih j]
            refine ⟨Nat.succ_lt_succ_iff.mp h1, h2, ?_⟩
            intro i hi
            have := h3 (i + 1) (Nat.succ_lt_succ hi)
            rwa [List.getD_cons_succ] at this
          rw [hxs]
          rfl

lemma firstIdx_congr {pred pred2 : ℚ → Bool} (l : List ℚ)
    (h : ∀ x ∈ l, pred x = pred2 x) : firstIdx pred l = firstIdx pred2 l := by
  induction l with
  | nil => rfl
  | cons x xs ih =>
    rw [firstIdx, firstIdx, h x (List.mem_cons_self x xs),
      ih fun y hy => h y (List.mem_cons_of_mem x hy)]

lemma firstIdx_isSome_of_exists {pred : ℚ → Bool} {l : List ℚ}
    (h : ∃ i, i < l.length ∧ pred (l.getD i 0) = true) :
    ∃ j, firstIdx pred l = some j := by
  rcases h with ⟨i, hi, hp⟩
  cases hfi : firstIdx pred l with
  | some j => exact ⟨j, rfl⟩
  | none =>
    have := (firstIdx_eq_none_iff pred l).mp hfi i hi
    rw [hp] at this
    exact absurd this (by simp)

/-! ### The `inv_cdf` scan loop -/

lemma invCdfAux_eq (k : ℕ) (q : ℚ) :
    ∀ (l : List ℚ) (i : ℕ) (acc : ℚ),
      invCdfAux k q i acc l =
        match firstIdx (fun s => decide (q ≤ s ∨ s = 1)) (cumsums acc l) with
        | some j => i + j
        | none => k - 1 := by
  intro l
  induction l with
  | nil => intro i acc; rfl
  | cons x xs ih =>
    intro i acc
    simp only [invCdfAux]
    by_cases hc : q ≤ acc + x ∨ acc + x = 1
    · rw [if_pos hc]
      have : firstIdx (fun s => decide (q ≤ s ∨ s = 1)) (cumsums acc (x :: xs)) = some 0 := by
        rw [cumsums, firstIdx, if_pos (by simpa using hc)]
      rw [this]
      simp
    · rw [if_neg hc, ih (i + 1) (acc + x)]
      have hhd : firstIdx (fun s => decide (q ≤ s ∨ s = 1)) (cumsums acc (x :: xs)) =
          (firstIdx (fun s => decide (q ≤ s ∨ s = 1)) (cumsums (acc + x) xs)).map (· + 1) := by
        rw [cumsums, firstIdx, if_neg (by simpa using hc)]
      rw [hhd]
      cases firstIdx (fun s => decide (q ≤ s ∨ s = 1)) (cumsums (acc + x) xs) with
      | none => rfl
      | some j =>
        show i + 1 + j = i + (j + 1)
        omega

/-! ### The `median` scan loop -/

lemma medianLoop_none (l : List ℚ) :
    ∀ (i : ℕ) (acc : ℚ),
      firstIdx (fun s => decide (1 / 2 ≤ s)) (cumsums acc l) = none →
      medianLoop i acc l = none := by
  induction l with
  | nil => intro i acc _; rfl
  | cons x xs ih =>
    intro i acc h
    rw [cumsums, firstIdx] at h
    by_cases hle : 1 / 2 ≤ acc + x
    · rw [if_pos (by simpa using hle)] at h
      exact absurd h (by simp)
    · rw [if_neg (by simpa using hle)] at h
      have hnone := Option.map_eq_none'.mp h
      have hne : ¬(acc + x = 1 / 2) := fun hh => hle (le_of_eq hh.symm)
      have hnlt : ¬(1 / 2 < acc + x) := fun hh => hle (le_of_lt hh)
      simp only [medianLoop, if_neg hne, if_neg hnlt]
      exact ih (i + 1) (acc + x) hnone

lemma medianLoop_some (l : List ℚ) :
    ∀ (i j : ℕ) (acc : ℚ),
      firstIdx (fun s => decide (1 / 2 ≤ s)) (cumsums acc l) = some j →
      medianLoop i acc l =
        some (if (cumsums acc l).getD j 0 = 1 / 2
              then ((2 * (i + j) - 1 : ℕ) : ℚ) / 2 else ((i + j : ℕ) : ℚ)) := by
  induction l with
  | nil => intro i j acc h; exact absurd h (by simp [cumsums, firstIdx])
  | cons x xs ih =>
    intro i j acc h
    rw [cumsums] at h ⊢
    rw [firstIdx] at h
    by_cases hle : 1 / 2 ≤ acc + x
    · rw [if_pos (by simpa using hle)] at h
      obtain rfl : j = 0 := by simpa using (Option.some.inj h).symm
      rw [List.getD_cons_zero]
      by_cases heq : acc + x = 1 / 2
      · simp only [medianLoop, if_pos heq, Nat.add_zero]
      · have hlt : 1 / 2 < acc + x := lt_of_le_of_ne hle fun hh => heq hh.symm
        simp only [medianLoop, if_neg heq, if_pos hlt, Nat.add_zero]
    · rw [if_neg (by simpa using hle)] at h
      rcases Option.map_eq_some'.mp h with ⟨j', hj', hjj⟩
      obtain rfl : j = j' + 1 := hjj.symm
      rw [List.getD_cons_succ]
      have hne : ¬(acc + x = 1 / 2) := fun hh => hle (le_of_eq hh.symm)
      have hnlt : ¬(1 / 2 < acc + x) := fun hh => hle (le_of_lt hh)
      simp only [medianLoop, if_neg hne, if_neg hnlt]
      rw [ih (i + 1) j' (acc + x) hj']
      rw [show i + (j' + 1) = i + 1 + j' from by omega]

lemma medianLoopInt_none (l : List ℚ) :
    ∀ (i : ℕ) (acc : ℚ),
      firstIdx (fun s => decide (1 / 2 ≤ s)) (cumsums acc l) = none →
      medianLoopInt i acc l = none := by
  induction l with
  | nil => intro i acc _; rfl
  | cons x xs ih =>
    intro i acc h
    rw [cumsums, firstIdx] at h
    by_cases hle : 1 / 2 ≤ acc + x
    · rw [if_pos (by simpa using hle)] at h
      exact absurd h (by simp)
    · rw [if_neg (by simpa using hle)] at h
      have hnone := Option.map_eq_none'.mp h
      have hne : ¬(acc + x = 1 / 2) := fun hh => hle (le_of_eq hh.symm)
      have hnlt : ¬(1 / 2 < acc + x) := fun hh => hle (le_of_lt hh)
      simp only [medianLoopInt, if_neg hne, if_neg hnlt]
      exact ih (i + 1) (acc + x) hnone

lemma medianLoopInt_some (l : List ℚ) :
    ∀ (i j : ℕ) (acc : ℚ),
      firstIdx (fun s => decide (1 / 2 ≤ s)) (cumsums acc l) = some j →
      medianLoopInt i acc l =
        some (if (cumsums acc l).getD j 0 = 1 / 2
              then ((2 * ((i : ℤ) + j) - 1 : ℤ) : ℚ) / 2 else ((i + j : ℕ) : ℚ)) := by
  induction l with
  | nil => intro i j acc h; exact absurd h (by simp [cumsums, firstIdx])
  | cons x xs ih =>
    intro i j acc h
    rw [cumsums] at h ⊢
    rw [firstIdx] at h
    by_cases hle : 1 / 2 ≤ acc + x
    · rw [if_pos (by simpa using hle)] at h
      obtain rfl : j = 0 := by simpa using (Option.some.inj h).symm
      rw [List.getD_cons_zero]
      by_cases heq : acc + x = 1 / 2
      · simp only [medianLoopInt, if_pos heq, Nat.add_zero]
        norm_num
      · have hlt : 1 / 2 < acc + x := lt_of_le_of_ne hle fun hh => heq hh.symm
        simp only [medianLoopInt, if_neg heq, if_pos hlt, Nat.add_zero]
    · rw [if_neg (by simpa using hle)] at h
      rcases Option.map_eq_some'.mp h with ⟨j', hj', hjj⟩
      obtain rfl : j = j' + 1 := hjj.symm
      rw [List.getD_cons_succ]
      have hne : ¬(acc + x = 1 / 2) := fun hh => hle (le_of_eq hh.symm)
      have hnlt : ¬(1 / 2 < acc + x) := fun hh => hle (le_of_lt hh)
      simp only [medianLoopInt, if_neg hne, if_neg hnlt]
      rw [ih (i + 1) j' (acc + x) hj']
      rw [show i + (j' + 1) = i + 1 + j' from by omega]
      rw [show ((i : ℤ) + (j' + 1 : ℕ)) = ((i + 1 : ℕ) : ℤ) + (j' : ℕ) from by push_cast; ring]

/-! ### The `modes` scan loop -/

lemma le_foldl_max (l : List ℚ) : ∀ b : ℚ, b ≤ l.foldl max b := by
  induction l with
  | nil => intro b; exact le_refl b
  | cons x xs ih =>
    intro b
    simp only [List.foldl_cons]
    exact le_trans (le_max_left b x) (ih (max b x))

lemma foldl_max_le {l : List ℚ} {M : ℚ} (hM : ∀ x ∈ l, x ≤ M) :
    ∀ b : ℚ, b ≤ M → l.foldl max b ≤ M := by
  induction l with
  | nil => intro b hb; exact hb
  | cons x xs ih =>
    intro b hb
    simp only [List.foldl_cons]
    exact ih (fun y hy => hM y (List.mem_cons_of_mem x hy))
      (max b x) (max_le hb (hM x (List.mem_cons_self x xs)))

lemma mem_le_foldl_max (l : List ℚ) : ∀ (b x : ℚ), x ∈ l → x ≤ l.foldl max b := by
  induction l with
  | nil => intro b x hx; simp at hx
  | cons y ys ih =>
    intro b x hx
    simp only [List.foldl_cons]
    rcases List.mem_cons.mp hx with hx | hx
    · exact hx ▸ le_trans (le_max_right b x) (le_foldl_max ys (max b x))
    · exact ih (max b y) x hx

lemma range_filter_cons (x : ℚ) (xs : List ℚ) (M : ℚ) (i : ℕ) :
    ((List.range (xs.length + 1)).filter fun j => decide ((x :: xs).getD j 0 = M)).map (· + i)
      = (if x = M then [i] else []) ++
        ((List.range xs.length).filter fun j => decide (xs.getD j 0 = M)).map (· + (i + 1)) := by
  have htail :
      ((List.range xs.length).map Nat.succ).filter (fun j => decide ((x :: xs).getD j 0 = M))
        = ((List.range xs.length).filter fun j => decide (xs.getD j 0 = M)).map Nat.succ := by
    rw [List.filter_map]
    rfl
  have hshift :
      (((List.range xs.length).filter fun j => decide (xs.getD j 0 = M)).map Nat.succ).map
          (· + i)
        = ((List.range xs.length).filter fun j => decide (xs.getD j 0 = M)).map (· + (i + 1)) := by
    rw [List.map_map]
    apply List.map_congr_left
    intro j _
    simp only [Function.comp_apply]
    omega
  rw [List.range_succ_eq_map]
  by_cases hx : x = M
  · rw [List.filter_cons_of_pos (by simpa using hx), List.map_cons, htail, hshift,
      if_pos hx]
    simp
  · rw [List.filter_cons_of_neg (by simpa using hx), htail, hshift, if_neg hx,
      List.nil_append]

lemma modesAux_eq (l : List ℚ) :
    ∀ (i : ℕ) (mx : ℚ) (ms : List ℕ),
      modesAux i mx ms l =
        (if l.foldl max mx = mx then ms else []) ++
          ((List.range l.length).filter fun j => decide (l.getD j 0 = l.foldl max mx)).map
            (· + i) := by
  induction l with
  | nil =>
    intro i mx ms
    simp [modesAux]
  | cons x xs ih =>
    intro i mx ms
    simp only [List.foldl_cons, List.length_cons]
    rcases lt_trichotomy x mx with hlt | heq | hgt
    · have hmax : max mx x = mx := max_eq_left (le_of_lt hlt)
      have hxne : ¬(x = mx) := ne_of_lt hlt
      have hnlt : ¬(mx < x) := not_lt_of_gt hlt
      simp only [modesAux, if_neg hxne, if_neg hnlt, hmax]
      rw [ih (i + 1) mx ms, range_filter_cons]
      have hxneM : ¬(x = xs.foldl max mx) :=
        fun hh => absurd (hh ▸ le_foldl_max xs mx : mx ≤ x) (not_le_of_lt hlt)
      rw [if_neg hxneM]
      rw [List.nil_append]
    · have hmax : max mx x = mx := by rw [heq]; exact max_self mx
      have hnlt : ¬(mx < x) := by rw [heq]; exact lt_irrefl mx
      simp only [modesAux, if_pos heq, if_neg hnlt, hmax]
      rw [ih (i + 1) mx (ms ++ [i]), range_filter_cons]
      by_cases hM : xs.foldl max mx = mx
      · rw [if_pos hM, if_pos hM, if_pos (heq.trans hM.symm)]
        simp [List.append_assoc]
      · rw [if_neg hM, if_neg hM, if_neg fun hh => hM (hh.symm.trans heq)]
        rw [List.nil_append, List.nil_append]
    · have hmax : max mx x = x := max_eq_right (le_of_lt hgt)
      have hxne : ¬(x = mx) := ne_of_gt hgt
      simp only [modesAux, if_neg hxne, if_pos hgt, hmax]
      rw [ih (i + 1) x [i], range_filter_cons]
      have hMne : ¬(xs.foldl max x = mx) := by
        intro hh
        exact absurd (hh ▸ le_foldl_max xs x : x ≤ mx) (not_le_of_lt hgt)
      rw [if_neg hMne, List.nil_append]
      by_cases hMx : xs.foldl max x = x
      · rw [if_pos hMx, if_pos hMx.symm]
      · rw [if_neg hMx, if_neg fun hh => hMx hh.symm, List.nil_append]

/-! ### Floor facts for `cdf` -/

lemma le_toNatFloor {x : ℚ} (hx : 0 ≤ x) (n : ℕ) :
    n ≤ (⌊x⌋).toNat ↔ (n : ℚ) ≤ x := by
  rw [Int.le_toNat (Int.floor_nonneg.mpr hx), Int.le_floor]
  norm_cast

lemma cdf_nonneg {d : Categorical} (hd : Valid d) (x : ℚ) : 0 ≤ cdf d x := by
  rw [cdf]
  by_cases hx : x < 0
  · rw [if_pos hx]
  · rw [if_neg hx]
    by_cases hk : d.k - 1 ≤ (⌊x⌋).toNat
    · rw [if_pos hk]
      norm_num
    · rw [if_neg hk]
      exact listSum_nonneg fun y hy => hd.mem_nonneg y (List.mem_of_mem_take hy)

/-! ### Claim theorems -/

/-- C5: `Categorical::new(p)` fails fast, returning no object, exactly when some
entry of `p` lies outside `[0, 1]` or the sum of the entries deviates from `1`
by more than the absolute tolerance `1e-12`; on success the distribution stores
`k = p.len()` and an element-for-element copy of the caller's vector. -/
theorem C5_new_validation (p : List ℚ) :
    (new p = none ↔ (∃ x ∈ p, x < 0 ∨ 1 < x) ∨ EPSILON < |listSum p - 1|)
  ∧ ∀ d : Categorical, new p = some d → d.k = p.length ∧ d.p = p := by
  constructor
  · have hnone : new p = none ↔ ¬(is_probability_vector p = true) := by
      rw [new]
      by_cases h : is_probability_vector p
      · rw [if_pos h]
        simp [h]
      · rw [if_neg h]
        simp [h]
    rw [hnone, is_probability_vector_iff, not_and_or]
    constructor
    · rintro (h | h)
      · left
        push_neg at h
        rcases h with ⟨x, hx, hcond⟩
        refine ⟨x, hx, ?_⟩
        by_cases h0 : 0 ≤ x
        · exact Or.inr (hcond h0)
        · exact Or.inl (lt_of_not_ge h0)
      · right
        exact lt_of_not_ge h
    · rintro (⟨x, hx, hcond⟩ | h)
      · left
        intro hall
        rcases hall x hx with ⟨h0, h1⟩
        rcases hcond with hc | hc
        · exact absurd h0 (not_le_of_lt hc)
        · exact absurd h1 (not_le_of_lt hc)
      · right
        exact not_le_of_lt h
  · intro d hd
    rw [new] at hd
    by_cases h : is_probability_vector p
    · rw [if_pos h] at hd
      have := (Option.some.inj hd).symm
      rw [this]
      exact ⟨rfl, rfl⟩
    · rw [if_neg h] at hd
      exact absurd hd (by simp)

/-- Closed witness for C5 at concrete inputs: `[1/2, 1/2]` is accepted with the
fields copied, and `[2]` is rejected. -/
theorem C5_new_validation_witness :
    new [(2 : ℚ)] = none ∧
      (⟨2, [1/2, 1/2]⟩ : Categorical).k = [(1 : ℚ)/2, 1/2].length ∧
      (⟨2, [1/2, 1/2]⟩ : Categorical).p = [(1 : ℚ)/2, 1/2] := by
  refine ⟨?_, ?_⟩
  · exact (C5_new_validation [(2 : ℚ)]).1.mpr
      (Or.inl ⟨2, List.mem_singleton.mpr rfl, Or.inr (by norm_num)⟩)
  · exact (C5_new_validation [(1 : ℚ)/2, 1/2]).2 ⟨2, [1/2, 1/2]⟩
      (by norm_num [new, is_probability_vector, pvCheck, EPSILON, abs_le])

/-- C2: for a valid `Categorical` the `cdf` is `0` strictly below the support,
`1` at or beyond the last support value `k - 1`, and otherwise the sum of the
masses of the outcomes up to `floor(x)`; any input gives the same result as its
floor; and on the mass vector `[0, 0.75, 0.25, 0]` the values at `-1..3` are
`0, 0, 0.75, 1, 1`. -/
theorem C2_cdf_piecewise (d : Categorical) (hd : Valid d) (x : ℚ) :
    (x < 0 → cdf d x = 0)
  ∧ ((d.k : ℚ) - 1 ≤ x → cdf d x = 1)
  ∧ (0 ≤ x → x < (d.k : ℚ) - 1 → cdf d x = listSum (d.p.take ((⌊x⌋).toNat + 1)))
  ∧ cdf d x = cdf d ((⌊x⌋ : ℚ))
  ∧ (cdf ⟨4, [0, 3/4, 1/4, 0]⟩ (-1) = 0 ∧ cdf ⟨4, [0, 3/4, 1/4, 0]⟩ 0 = 0 ∧
     cdf ⟨4, [0, 3/4, 1/4, 0]⟩ 1 = 3/4 ∧ cdf ⟨4, [0, 3/4, 1/4, 0]⟩ 2 = 1 ∧
     cdf ⟨4, [0, 3/4, 1/4, 0]⟩ 3 = 1) := by
  have hk1 : 1 ≤ d.k := hd.k_pos
  refine ⟨?_, ?_, ?_, ?_, ?_⟩
  · intro hx
    rw [cdf, if_pos hx]
  · intro hx
    have hx0 : (0 : ℚ) ≤ x := by
      have : (0 : ℚ) ≤ (d.k : ℚ) - 1 := by
        have : (1 : ℚ) ≤ (d.k : ℚ) := by exact_mod_cast hk1
        linarith
      linarith
    rw [cdf, if_neg (not_lt.mpr hx0)]
    have hcast : ((d.k - 1 : ℕ) : ℚ) = (d.k : ℚ) - 1 := by
      push_cast [hk1]
      ring
    have : d.k - 1 ≤ (⌊x⌋).toNat := by
      rw [le_toNatFloor hx0, hcast]
      exact hx
    rw [if_pos this]
  · intro hx0 hx
    rw [cdf, if_neg (not_lt.mpr hx0)]
    have hcast : ((d.k - 1 : ℕ) : ℚ) = (d.k : ℚ) - 1 := by
      push_cast [hk1]
      ring
    have : ¬(d.k - 1 ≤ (⌊x⌋).toNat) := by
      rw [le_toNatFloor hx0, hcast]
      exact not_le_of_lt hx
    rw [if_neg this]
  · by_cases hx : x < 0
    · have hfx : ((⌊x⌋ : ℚ)) < 0 := by
        have h1 : (⌊x⌋ : ℚ) ≤ x := Int.floor_le x
        linarith
      rw [cdf, if_pos hx, cdf, if_pos hfx]
    · have hfx : ¬((⌊x⌋ : ℚ) < 0) := by
        push_neg at hx ⊢
        exact_mod_cast Int.floor_nonneg.mpr hx
      rw [cdf, if_neg hx, cdf, if_neg hfx, Int.floor_intCast]
  · refine ⟨?_, ?_, ?_, ?_, ?_⟩ <;>
      norm_num [cdf, listSum, show Int.toNat 0 = 0 from rfl, show Int.toNat 1 = 1 from rfl,
        show Int.toNat 2 = 2 from rfl, show Int.toNat 3 = 3 from rfl]

/-- Closed witness for C2 at the mass vector `[0, 0.75, 0.25, 0]` and `x = 3/2`. -/
theorem C2_cdf_piecewise_witness :
    Valid ⟨4, [0, 3/4, 1/4, 0]⟩ ∧
      cdf ⟨4, [0, 3/4, 1/4, 0]⟩ (3/2) =
        listSum ([(0 : ℚ), 3/4, 1/4, 0].take ((⌊(3/2 : ℚ)⌋).toNat + 1)) := by
  have hv : Valid ⟨4, [0, 3/4, 1/4, 0]⟩ :=
    ⟨rfl, by norm_num [is_probability_vector, pvCheck, EPSILON, abs_le]⟩
  refine ⟨hv, ?_⟩
  exact (C2_cdf_piecewise ⟨4, [0, 3/4, 1/4, 0]⟩ hv (3/2)).2.2.1 (by norm_num) (by norm_num)

/-- C7 (amended): for a valid `Categorical` whose masses sum to at most `1`,
the `cdf` is monotone: `x1 <= x2` implies `cdf(x1) <= cdf(x2)`. -/
theorem C7_cdf_monotone (d : Categorical) (hd : Valid d)
    (hsum : listSum d.p ≤ 1) (x1 x2 : ℚ) (h : x1 ≤ x2) : cdf d x1 ≤ cdf d x2 := by
  by_cases h1 : x1 < 0
  · rw [cdf, if_pos h1]
    exact cdf_nonneg hd x2
  · have h1' : (0 : ℚ) ≤ x1 := le_of_not_lt h1
    have h2' : (0 : ℚ) ≤ x2 := le_trans h1' h
    have hn : (⌊x1⌋).toNat ≤ (⌊x2⌋).toNat :=
      Int.toNat_le_toNat (Int.floor_le_floor h)
    rw [cdf, if_neg (not_lt.mpr h1'), cdf, if_neg (not_lt.mpr h2')]
    by_cases hk1 : d.k - 1 ≤ (⌊x1⌋).toNat
    · rw [if_pos hk1, if_pos (le_trans hk1 hn)]
    · rw [if_neg hk1]
      by_cases hk2 : d.k - 1 ≤ (⌊x2⌋).toNat
      · rw [if_pos hk2]
        exact le_trans (listSum_take_le hd.mem_nonneg _) hsum
      · rw [if_neg hk2]
        exact listSum_take_mono hd.mem_nonneg (Nat.succ_le_succ hn)

/-- Closed witness for C7 at the valid vector `[1/2, 1/2]`, `x1 = 0`, `x2 = 1`. -/
theorem C7_cdf_monotone_witness :
    Valid ⟨2, [1/2, 1/2]⟩ ∧ listSum [(1 : ℚ)/2, 1/2] ≤ 1 ∧
      cdf ⟨2, [1/2, 1/2]⟩ 0 ≤ cdf ⟨2, [1/2, 1/2]⟩ 1 := by
  have hv : Valid ⟨2, [1/2, 1/2]⟩ :=
    ⟨rfl, by norm_num [is_probability_vector, pvCheck, EPSILON, abs_le]⟩
  have hs : listSum [(1 : ℚ)/2, 1/2] ≤ 1 := by norm_num [listSum]
  exact ⟨hv, hs, C7_cdf_monotone ⟨2, [1/2, 1/2]⟩ hv hs 0 1 (by norm_num)⟩

/-- Counterexample to C7 as stated: the tolerance of `new` admits the mass
vector `[1, 1e-13, 0]`, whose prefix sums exceed `1`, and there `cdf` is not
monotone: `cdf(1) = 1 + 1e-13 > 1 = cdf(2)`. -/
theorem C7_cdf_monotone_counterexample :
    Valid ⟨3, [1, 1/10000000000000, 0]⟩ ∧ (1 : ℚ) ≤ 2 ∧
      cdf ⟨3, [1, 1/10000000000000, 0]⟩ 2 < cdf ⟨3, [1, 1/10000000000000, 0]⟩ 1 := by
  refine ⟨⟨rfl, ?_⟩, by norm_num, ?_⟩
  · norm_num [is_probability_vector, pvCheck, EPSILON, abs_le]
  · norm_num [cdf, listSum, show Int.toNat 1 = 1 from rfl, show Int.toNat 2 = 2 from rfl]

/-! ### `inv_cdf` support lemmas -/

lemma getD_mem_of_lt {l : List ℚ} {i : ℕ} (h : i < l.length) : l.getD i 0 ∈ l := by
  rw [List.getD_eq_getElem l 0 h]
  exact List.getElem_mem h

lemma exists_getD_of_mem {l : List ℚ} {x : ℚ} (h : x ∈ l) :
    ∃ i, i < l.length ∧ l.getD i 0 = x := by
  rcases List.mem_iff_get.mp h with ⟨n, hn⟩
  exact ⟨n.1, n.2, by rw [List.getD_eq_getElem l 0 n.2]; simpa using hn⟩

lemma invCdf_scan {d : Categorical} {q : ℚ} (h0 : 0 < q) (h1 : q ≤ 1) :
    invCdf d q =
      Except.ok (match firstIdx (fun s => decide (q ≤ s ∨ s = 1)) (cumsums 0 d.p) with
        | some j => j
        | none => d.k - 1) := by
  rw [invCdf, if_neg (not_not_intro ⟨le_of_lt h0, h1⟩), if_neg (ne_of_gt h0),
    invCdfAux_eq d.k q d.p 0 0]
  cases firstIdx (fun s => decide (q ≤ s ∨ s = 1)) (cumsums 0 d.p) with
  | none => rfl
  | some j => simp

lemma scan_pred_collapse {q : ℚ} (h1 : q ≤ 1) (s : ℚ) :
    decide (q ≤ s ∨ s = 1) = decide (q ≤ s) := by
  apply decide_eq_decide.mpr
  constructor
  · rintro (h | h)
    · exact h
    · rw [h]
      exact h1
  · exact Or.inl

lemma invCdf_zero_spec {d : Categorical} (hd : Valid d) :
    ∃ j, invCdf d 0 = Except.ok j ∧ j < d.k ∧ 0 < d.p.getD j 0 ∧
      ∀ l, l < j → d.p.getD l 0 = 0 := by
  rcases hd.exists_pos with ⟨x, hx, hxpos⟩
  rcases exists_getD_of_mem hx with ⟨n, hn, hnx⟩
  have hexists : ∃ i, i < d.p.length ∧ (fun y => decide (0 < y)) (d.p.getD i 0) = true :=
    ⟨n, hn, by rw [hnx]; exact decide_eq_true_eq.mpr hxpos⟩
  rcases @firstIdx_isSome_of_exists (fun y => decide (0 < y)) d.p hexists with ⟨j, hj⟩
  rcases (firstIdx_eq_some_iff _ d.p j).mp hj with ⟨hjlen, hjpred, hjmin⟩
  refine ⟨j, ?_, ?_, ?_, ?_⟩
  · rw [invCdf, if_neg (not_not_intro ⟨le_refl 0, by norm_num⟩), if_pos rfl, hj]
  · rw [hd.k_eq]
    exact hjlen
  · exact decide_eq_true_eq.mp hjpred
  · intro l hl
    have hfalse := hjmin l hl
    have hnonpos : ¬(0 < d.p.getD l 0) := by
      intro hpos
      rw [decide_eq_true_eq.mpr hpos] at hfalse
      exact absurd hfalse (by simp)
    have hmem : d.p.getD l 0 ∈ d.p := getD_mem_of_lt (lt_trans hl hjlen)
    exact le_antisymm (le_of_not_lt hnonpos) (hd.mem_nonneg _ hmem)

/-- C1 (amended): for a valid `Categorical`, `inv_cdf(p)` fails with
`OutOfRange` exactly when `p` is outside `[0, 1]`; for `p = 0` it returns the
index of the first outcome with strictly positive mass; for `p` in `(0, 1]` it
returns the smallest support value whose cumulative mass is `>= p` whenever one
exists, and returns `k - 1` when the total mass falls short of `p` (possible
within the construction tolerance). -/
theorem C1_inv_cdf_out_of_range_and_quantile (d : Categorical) (hd : Valid d) (q : ℚ) :
    (invCdf d q = Except.error FailKind.outOfRange ↔ (q < 0 ∨ 1 < q))
  ∧ (q = 0 → ∃ j, invCdf d q = Except.ok j ∧ j < d.k ∧ 0 < d.p.getD j 0 ∧
       ∀ l, l < j → d.p.getD l 0 = 0)
  ∧ (0 < q → q ≤ 1 → (∃ j, j < d.k ∧ q ≤ csum d j) →
       ∃ i, invCdf d q = Except.ok i ∧ i < d.k ∧ q ≤ csum d i ∧
         ∀ l, l < i → csum d l < q)
  ∧ (0 < q → q ≤ 1 → (∀ j, j < d.k → csum d j < q) →
       invCdf d q = Except.ok (d.k - 1)) := by
  have hlen : (cumsums 0 d.p).length = d.p.length := cumsums_length d.p 0
  refine ⟨?_, ?_, ?_, ?_⟩
  · constructor
    · intro h
      by_contra hcon
      push_neg at hcon
      have hin : 0 ≤ q ∧ q ≤ 1 := hcon
      by_cases hq0 : q = 0
      · subst hq0
        rcases invCdf_zero_spec hd with ⟨j, hj, -, -, -⟩
        rw [hj] at h
        exact absurd h (by simp)
      · have h0 : 0 < q := lt_of_le_of_ne hin.1 fun hh => hq0 hh.symm
        rw [invCdf_scan h0 hin.2] at h
        exact absurd h (by simp)
    · intro hcon
      rw [invCdf, if_pos]
      rintro ⟨ha, hb⟩
      rcases hcon with hc | hc
      · exact absurd ha (not_le_of_lt hc)
      · exact absurd hb (not_le_of_lt hc)
  · intro hq0
    subst hq0
    exact invCdf_zero_spec hd
  · intro h0 h1 hex
    rcases hex with ⟨j, hjk, hjq⟩
    have hjlen : j < (cumsums 0 d.p).length := by
      rw [hlen, ← hd.k_eq]
      exact hjk
    have hexists :
        ∃ i, i < (cumsums 0 d.p).length ∧
          (fun s => decide (q ≤ s)) ((cumsums 0 d.p).getD i 0) = true :=
      ⟨j, hjlen, decide_eq_true_eq.mpr hjq⟩
    rcases @firstIdx_isSome_of_exists (fun s => decide (q ≤ s)) (cumsums 0 d.p) hexists
      with ⟨i, hi⟩
    rcases (firstIdx_eq_some_iff _ _ i).mp hi with ⟨hilen, hipred, himin⟩
    have hcollapse := firstIdx_congr (cumsums 0 d.p)
      fun s _ => scan_pred_collapse h1 s
    refine ⟨i, ?_, ?_, decide_eq_true_eq.mp hipred, ?_⟩
    · rw [invCdf_scan h0 h1, hcollapse, hi]
    · rw [hd.k_eq, ← hlen]
      exact hilen
    · intro l hl
      have hfalse := himin l hl
      by_contra hcon
      rw [csum] at hcon
      rw [decide_eq_true_eq.mpr (le_of_not_lt hcon)] at hfalse
      exact absurd hfalse (by simp)
  · intro h0 h1 hall
    have hcollapse := firstIdx_congr (cumsums 0 d.p)
      fun s _ => scan_pred_collapse h1 s
    have hnone : firstIdx (fun s => decide (q ≤ s)) (cumsums 0 d.p) = none := by
      rw [firstIdx_eq_none_iff]
      intro i hi
      have hik : i < d.k := by
        rw [hd.k_eq, ← hlen]
        exact hi
      have := hall i hik
      exact decide_eq_false (not_le_of_lt this)
    rw [invCdf_scan h0 h1, hcollapse, hnone]

/-- Closed witness for C1 on the vector `[0, 0.75, 0.25, 0]`. -/
theorem C1_inv_cdf_out_of_range_and_quantile_witness :
    Valid ⟨4, [0, 3/4, 1/4, 0]⟩ ∧
      invCdf ⟨4, [0, 3/4, 1/4, 0]⟩ 2 = Except.error FailKind.outOfRange := by
  have hv : Valid ⟨4, [0, 3/4, 1/4, 0]⟩ :=
    ⟨rfl, by norm_num [is_probability_vector, pvCheck, EPSILON, abs_le]⟩
  exact ⟨hv,
    (C1_inv_cdf_out_of_range_and_quantile ⟨4, [0, 3/4, 1/4, 0]⟩ hv 2).1.mpr
      (Or.inr (by norm_num))⟩

/-- Counterexample to C1 as stated: the tolerance of `new` accepts
`[1/2, 1/2 - 1e-13]`, whose total mass is `1 - 1e-13 < 1`; at `p = 1` no
support value has cumulative mass `>= 1`, yet `inv_cdf(1)` returns `1`. -/
theorem C1_counterexample :
    Valid ⟨2, [1/2, 1/2 - 1/10000000000000]⟩ ∧
      invCdf ⟨2, [1/2, 1/2 - 1/10000000000000]⟩ 1 = Except.ok 1 ∧
      csum ⟨2, [1/2, 1/2 - 1/10000000000000]⟩ 0 < 1 ∧
      csum ⟨2, [1/2, 1/2 - 1/10000000000000]⟩ 1 < 1 := by
  refine ⟨⟨rfl, ?_⟩, ?_, ?_, ?_⟩
  · norm_num [is_probability_vector, pvCheck, EPSILON, abs_le]
  · norm_num [invCdf, invCdfAux, firstIdx]
  · norm_num [csum, cumsums]
  · norm_num [csum, cumsums]

/-- C3 (amended): for a valid `Categorical` and `p` in `(0, 1]`, `inv_cdf(p)`
returns the index at the first point where the running cumulative sum satisfies
`sum >= p` or `sum == 1.0` whenever such a point exists; any index lying beyond
a point where the cumulative sum equals `1` exactly (such as a trailing
zero-mass outcome) is never returned; and on `[0, 0.75, 0.25, 0]` the inputs
`0, 0.75, 0.7500001, 1` yield `1, 1, 2, 2`. -/
theorem C3_inv_cdf_early_exit (d : Categorical) (hd : Valid d) (q : ℚ)
    (h0 : 0 < q) (h1 : q ≤ 1) :
    ((∃ j, j < d.k ∧ (q ≤ csum d j ∨ csum d j = 1)) →
       ∃ i, invCdf d q = Except.ok i ∧ i < d.k ∧ (q ≤ csum d i ∨ csum d i = 1) ∧
         ∀ l, l < i → ¬(q ≤ csum d l ∨ csum d l = 1))
  ∧ (∀ j, j < d.k → csum d j = 1 → ∃ i, invCdf d q = Except.ok i ∧ i ≤ j)
  ∧ (invCdf ⟨4, [0, 3/4, 1/4, 0]⟩ 0 = Except.ok 1 ∧
     invCdf ⟨4, [0, 3/4, 1/4, 0]⟩ (3/4) = Except.ok 1 ∧
     invCdf ⟨4, [0, 3/4, 1/4, 0]⟩ (7500001/10000000) = Except.ok 2 ∧
     invCdf ⟨4, [0, 3/4, 1/4, 0]⟩ 1 = Except.ok 2) := by
  have hlen : (cumsums 0 d.p).length = d.p.length := cumsums_length d.p 0
  have hmain : (∃ j, j < d.k ∧ (q ≤ csum d j ∨ csum d j = 1)) →
      ∃ i, invCdf d q = Except.ok i ∧ i < d.k ∧ (q ≤ csum d i ∨ csum d i = 1) ∧
        ∀ l, l < i → ¬(q ≤ csum d l ∨ csum d l = 1) := by
    rintro ⟨j, hjk, hjq⟩
    have hjlen : j < (cumsums 0 d.p).length := by
      rw [hlen, ← hd.k_eq]
      exact hjk
    have hexists :
        ∃ i, i < (cumsums 0 d.p).length ∧
          (fun s => decide (q ≤ s ∨ s = 1)) ((cumsums 0 d.p).getD i 0) = true :=
      ⟨j, hjlen, decide_eq_true_eq.mpr hjq⟩
    rcases @firstIdx_isSome_of_exists (fun s => decide (q ≤ s ∨ s = 1)) (cumsums 0 d.p) hexists
      with ⟨i, hi⟩
    rcases (firstIdx_eq_some_iff _ _ i).mp hi with ⟨hilen, hipred, himin⟩
    refine ⟨i, ?_, ?_, decide_eq_true_eq.mp hipred, ?_⟩
    · rw [invCdf_scan h0 h1, hi]
    · rw [hd.k_eq, ← hlen]
      exact hilen
    · intro l hl
      have hfalse := himin l hl
      intro hcon
      rw [csum] at hcon
      rw [decide_eq_true_eq.mpr hcon] at hfalse
      exact absurd hfalse (by simp)
  refine ⟨hmain, ?_, ?_⟩
  · intro j hjk hj1
    rcases hmain ⟨j, hjk, Or.inr hj1⟩ with ⟨i, hok, -, -, hmin⟩
    refine ⟨i, hok, ?_⟩
    by_contra hcon
    exact hmin j (lt_of_not_ge hcon) (Or.inr hj1)
  · refine ⟨?_, ?_, ?_, ?_⟩ <;> norm_num [invCdf, invCdfAux, firstIdx]

/-- Closed witness for C3 at the vector `[0, 0.75, 0.25, 0]` and `p = 3/4`. -/
theorem C3_inv_cdf_early_exit_witness :
    Valid ⟨4, [0, 3/4, 1/4, 0]⟩ ∧
      invCdf ⟨4, [0, 3/4, 1/4, 0]⟩ 1 = Except.ok 2 := by
  have hv : Valid ⟨4, [0, 3/4, 1/4, 0]⟩ :=
    ⟨rfl, by norm_num [is_probability_vector, pvCheck, EPSILON, abs_le]⟩
  exact ⟨hv,
    (C3_inv_cdf_early_exit ⟨4, [0, 3/4, 1/4, 0]⟩ hv 1 (by norm_num) (by norm_num)).2.2.2.2.2⟩

/-- Counterexample to C3 as stated: the tolerance of `new` accepts the
single-outcome vector `[1 - 1e-13]`; at `p = 1` the running sum never satisfies
`sum >= p` or `sum == 1.0`, so there is no "first point" to return, yet
`inv_cdf(1)` returns the fallthrough value `k - 1 = 0`. -/
theorem C3_counterexample :
    Valid ⟨1, [1 - 1/10000000000000]⟩ ∧
      invCdf ⟨1, [1 - 1/10000000000000]⟩ 1 = Except.ok 0 ∧
      ¬((1 : ℚ) ≤ csum ⟨1, [1 - 1/10000000000000]⟩ 0 ∨
        csum ⟨1, [1 - 1/10000000000000]⟩ 0 = 1) := by
  refine ⟨⟨rfl, ?_⟩, ?_, ?_⟩
  · norm_num [is_probability_vector, pvCheck, EPSILON, abs_le]
  · norm_num [invCdf, invCdfAux, firstIdx]
  · norm_num [csum, cumsums]

/-! ### `median` support -/

lemma csum_zero_cons {d : Categorical} {p0 : ℚ} {rest : List ℚ}
    (heq : d.p = p0 :: rest) : csum d 0 = p0 := by
  rw [csum, heq, cumsums, List.getD_cons_zero, zero_add]

/-- C4: for a valid `Categorical`, `median()` is `0` when the first mass
exceeds `0.5`, `0.5` when the first mass equals `0.5` exactly, and otherwise,
scanning cumulative mass upward, `j - 0.5` at the first index `j` where the
cumulative mass equals `0.5` exactly and `j` at the first index where it
exceeds `0.5`; concretely `median([0.6, 0.2, 0.2]) = 0` and
`median([0.5, 0.5]) = 0.5`. -/
theorem C4_median_three_way (d : Categorical) (hd : Valid d) :
    (∀ p0 rest, d.p = p0 :: rest →
       (1/2 < p0 → median d = some 0)
     ∧ (p0 = 1/2 → median d = some (1/2))
     ∧ (p0 < 1/2 →
          (∀ j, j < d.k → csum d j = 1/2 → (∀ l, l < j → csum d l ≠ 1/2) →
             median d = some ((j : ℚ) - 1/2))
        ∧ ((∀ j, j < d.k → csum d j ≠ 1/2) →
             ∀ j, j < d.k → 1/2 < csum d j → (∀ l, l < j → csum d l ≤ 1/2) →
               median d = some (j : ℚ))))
  ∧ median ⟨3, [3/5, 1/5, 1/5]⟩ = some 0
  ∧ median ⟨2, [1/2, 1/2]⟩ = some (1/2) := by
  have hlen : (cumsums 0 d.p).length = d.p.length := cumsums_length d.p 0
  refine ⟨?_, by norm_num [median, medianLoop], by norm_num [median, medianLoop]⟩
  intro p0 rest heq
  have hmed : median d =
      (if 1/2 < p0 then some 0
       else if p0 = 1/2 then some (1/2)
       else medianLoop 0 0 d.p) := by
    rw [median, heq]
  refine ⟨?_, ?_, ?_⟩
  · intro h
    rw [hmed, if_pos h]
  · intro h
    rw [hmed, if_neg (by rw [h]; exact lt_irrefl _), if_pos h]
  · intro hlt
    have hmed2 : median d = medianLoop 0 0 d.p := by
      rw [hmed, if_neg (not_lt_of_gt hlt), if_neg (ne_of_lt hlt)]
    constructor
    · intro j hjk hj hjfirst
      have hjlen : j < (cumsums 0 d.p).length := by
        rw [hlen, ← hd.k_eq]
        exact hjk
      have hfi : firstIdx (fun s => decide (1 / 2 ≤ s)) (cumsums 0 d.p) = some j := by
        rw [firstIdx_eq_some_iff]
        refine ⟨hjlen, decide_eq_true_eq.mpr (le_of_eq hj.symm), ?_⟩
        intro l hl
        have hmono : csum d l ≤ csum d j := by
          apply csum_mono hd (le_of_lt hl)
          rw [← hd.k_eq]
          exact hjk
        have : csum d l < 1/2 := lt_of_le_of_ne (hj ▸ hmono) (hjfirst l hl)
        rw [csum] at this
        exact decide_eq_false (not_le_of_lt this)
      have hj1 : 1 ≤ j := by
        rcases Nat.eq_zero_or_pos j with h0 | h0
        · subst h0
          rw [csum_zero_cons heq] at hj
          exact absurd hj (ne_of_lt hlt)
        · exact h0
      rw [hmed2, medianLoop_some d.p 0 j 0 hfi]
      have hcs : (cumsums 0 d.p).getD j 0 = 1/2 := hj
      rw [if_pos hcs]
      congr 1
      rw [Nat.zero_add]
      have hcast : ((2 * j - 1 : ℕ) : ℚ) = 2 * (j : ℚ) - 1 := by
        have : 1 ≤ 2 * j := le_trans hj1 (by omega)
        push_cast [this]
        ring
      rw [hcast]
      ring
    · intro hne j hjk hj hjle
      have hjlen : j < (cumsums 0 d.p).length := by
        rw [hlen, ← hd.k_eq]
        exact hjk
      have hfi : firstIdx (fun s => decide (1 / 2 ≤ s)) (cumsums 0 d.p) = some j := by
        rw [firstIdx_eq_some_iff]
        refine ⟨hjlen, decide_eq_true_eq.mpr (le_of_lt hj), ?_⟩
        intro l hl
        have : csum d l < 1/2 :=
          lt_of_le_of_ne (hjle l hl) (hne l (lt_trans hl hjk))
        rw [csum] at this
        exact decide_eq_false (not_le_of_lt this)
      rw [hmed2, medianLoop_some d.p 0 j 0 hfi]
      have hcs : ¬((cumsums 0 d.p).getD j 0 = 1/2) := hne j hjk
      rw [if_neg hcs]
      congr 1
      rw [Nat.zero_add]

/-- Closed witness for C4 at the vector `[1/2, 1/2]`. -/
theorem C4_median_three_way_witness :
    Valid ⟨2, [1/2, 1/2]⟩ ∧ median ⟨2, [1/2, 1/2]⟩ = some (1/2) := by
  have hv : Valid ⟨2, [1/2, 1/2]⟩ :=
    ⟨rfl, by norm_num [is_probability_vector, pvCheck, EPSILON, abs_le]⟩
  exact ⟨hv,
    ((C4_median_three_way ⟨2, [1/2, 1/2]⟩ hv).1 (1/2) [1/2] rfl).2.1 rfl⟩

/-- C6: for a valid `Categorical`, `modes()` returns exactly the indices whose
mass equals the maximum mass `M`, with all ties retained, in ascending support
order; e.g. for `[0.4, 0.2, 0.4]` it returns `[0, 2]`. -/
theorem C6_modes_complete (d : Categorical) (hd : Valid d) (M : ℚ) (hM : M ∈ d.p)
    (hMax : ∀ x ∈ d.p, x ≤ M) :
    modes d = (List.range d.k).filter (fun i => decide (d.p.getD i 0 = M))
  ∧ List.Sorted (· < ·) (modes d)
  ∧ modes ⟨3, [2/5, 1/5, 2/5]⟩ = [0, 2] := by
  have hM0 : (0 : ℚ) ≤ M := hd.mem_nonneg M hM
  have hF : d.p.foldl max 0 = M :=
    le_antisymm (foldl_max_le hMax 0 hM0) (mem_le_foldl_max d.p 0 M hM)
  have h1 : modes d = (List.range d.k).filter (fun i => decide (d.p.getD i 0 = M)) := by
    rw [modes, modesAux_eq d.p 0 0 [], hF]
    have hif : (if M = (0 : ℚ) then ([] : List ℕ) else []) = [] := by
      by_cases h : M = (0 : ℚ)
      · rw [if_pos h]
      · rw [if_neg h]
    rw [hif, List.nil_append, hd.k_eq]
    have : ((List.range d.p.length).filter fun j => decide (d.p.getD j 0 = M)).map
        (· + 0) = ((List.range d.p.length).filter fun j => decide (d.p.getD j 0 = M)).map
        id := List.map_congr_left fun a _ => Nat.add_zero a
    rw [this, List.map_id]
  refine ⟨h1, ?_, by norm_num [modes, modesAux]⟩
  rw [h1]
  exact List.Pairwise.sublist (List.filter_sublist _) (List.pairwise_lt_range d.k)

/-- Closed witness for C6 at the vector `[0.4, 0.2, 0.4]` with maximum `0.4`. -/
theorem C6_modes_complete_witness :
    Valid ⟨3, [2/5, 1/5, 2/5]⟩ ∧ modes ⟨3, [2/5, 1/5, 2/5]⟩ = [0, 2] := by
  have hv : Valid ⟨3, [2/5, 1/5, 2/5]⟩ :=
    ⟨rfl, by norm_num [is_probability_vector, pvCheck, EPSILON, abs_le]⟩
  refine ⟨hv, (C6_modes_complete ⟨3, [2/5, 1/5, 2/5]⟩ hv (2/5) ?_ ?_).2.2⟩
  · simp
  · intro x hx
    simp only [List.mem_cons, List.not_mem_nil, or_false] at hx
    rcases hx with h | h | h <;> norm_num [h]

/-- C8's failing input: `entropy` on the constructor-accepted vector
`[0, 0.75, 0.25, 0]` evaluates `0.0 * ln(0.0)`, which is NaN, and the NaN
propagates through the fold: zero-mass terms are not skipped. -/
theorem C8_entropy_nan_at_zero_mass :
    Valid ⟨4, [0, 3/4, 1/4, 0]⟩ ∧ entropy ⟨4, [0, 3/4, 1/4, 0]⟩ = none := by
  refine ⟨⟨rfl, ?_⟩, ?_⟩
  · norm_num [is_probability_vector, pvCheck, EPSILON, abs_le]
  · simp [entropy, logTerm, addOpt]

/-- C9: `sample(source)` draws exactly one uniform value `u` from the source
(consuming it) and returns `inv_cdf(u)`; for a valid distribution and
`u ∈ [0, 1)` that result is a plain index. -/
theorem C9_sample_single_draw (d : Categorical) (hd : Valid d) (u : ℚ)
    (h0 : 0 ≤ u) (h1 : u < 1) (rest : List ℚ) :
    sample d ⟨u :: rest⟩ = some (invCdf d u, ⟨rest⟩)
  ∧ ∃ i, invCdf d u = Except.ok i ∧ sample d ⟨u :: rest⟩ = some (Except.ok i, ⟨rest⟩) := by
  refine ⟨rfl, ?_⟩
  by_cases hu : u = 0
  · subst hu
    rcases invCdf_zero_spec hd with ⟨j, hj, -, -, -⟩
    exact ⟨j, hj, by show some (invCdf d 0, (⟨rest⟩ : RandomSource)) = _; rw [hj]⟩
  · have h0' : 0 < u := lt_of_le_of_ne h0 fun hh => hu hh.symm
    have hok : invCdf d u = Except.ok (invCdfAux d.k u 0 0 d.p) := by
      rw [invCdf, if_neg (not_not_intro ⟨h0, le_of_lt h1⟩), if_neg hu]
    exact ⟨invCdfAux d.k u 0 0 d.p, hok, by show some (invCdf d u, (⟨rest⟩ : RandomSource)) = _; rw [hok]⟩

/-- Closed witness for C9 at `[1/2, 1/2]` with the single draw `u = 1/2`. -/
theorem C9_sample_single_draw_witness :
    Valid ⟨2, [1/2, 1/2]⟩ ∧
      sample ⟨2, [1/2, 1/2]⟩ ⟨[1/2]⟩ = some (invCdf ⟨2, [1/2, 1/2]⟩ (1/2), ⟨[]⟩) := by
  have hv : Valid ⟨2, [1/2, 1/2]⟩ :=
    ⟨rfl, by norm_num [is_probability_vector, pvCheck, EPSILON, abs_le]⟩
  exact ⟨hv,
    (C9_sample_single_draw ⟨2, [1/2, 1/2]⟩ hv (1/2) (by norm_num) (by norm_num) []).1⟩

/-- C10: every mass vector accepted by `Categorical::new` is non-empty and has
a strictly positive entry, and consequently no query aborts internally: the
`p[0]` access and the scan of `median` succeed, the `unwrap` inside
`inv_cdf(0)` succeeds, and the `usize` expression `2 * i - 1` in `median` is
only reached at `i >= 1`, so the truncating subtraction agrees with exact
integer subtraction. -/
theorem C10_no_internal_aborts (d : Categorical) (hd : Valid d) :
    d.p ≠ []
  ∧ (∃ x ∈ d.p, 0 < x)
  ∧ (∃ m, median d = some m)
  ∧ (∃ i, invCdf d 0 = Except.ok i)
  ∧ median d = medianInt d := by
  have hlen : (cumsums 0 d.p).length = d.p.length := cumsums_length d.p 0
  rcases List.exists_cons_of_ne_nil hd.ne_nil with ⟨p0, rest, heq⟩
  have hmed : median d =
      (if 1/2 < p0 then some 0
       else if p0 = 1/2 then some (1/2)
       else medianLoop 0 0 d.p) := by
    rw [median, heq]
  have hmedInt : medianInt d =
      (if 1/2 < p0 then some 0
       else if p0 = 1/2 then some (1/2)
       else medianLoopInt 0 0 d.p) := by
    rw [medianInt, heq]
  have hfi : ∀ j, firstIdx (fun s => decide (1 / 2 ≤ s)) (cumsums 0 d.p) = some j →
      p0 < 1/2 → medianLoop 0 0 d.p = medianLoopInt 0 0 d.p := by
    intro j hj hp0
    rw [medianLoop_some d.p 0 j 0 hj, medianLoopInt_some d.p 0 j 0 hj]
    by_cases hcs : (cumsums 0 d.p).getD j 0 = 1/2
    · rw [if_pos hcs, if_pos hcs]
      have hj1 : 1 ≤ j := by
        rcases Nat.eq_zero_or_pos j with h0 | h0
        · subst h0
          have : csum d 0 = 1/2 := hcs
          rw [csum_zero_cons heq] at this
          exact absurd this (ne_of_lt hp0)
        · exact h0
      congr 1
      have h2j : 1 ≤ 2 * j := le_trans hj1 (by omega)
      rw [Nat.zero_add]
      push_cast [h2j]
      ring_nf
    · rw [if_neg hcs, if_neg hcs]
  have hexists_half :
      ∃ i, i < (cumsums 0 d.p).length ∧
        (fun s => decide (1 / 2 ≤ s)) ((cumsums 0 d.p).getD i 0) = true := by
    refine ⟨d.p.length - 1, ?_, ?_⟩
    · rw [hlen]
      have : 0 < d.p.length := List.length_pos.mpr hd.ne_nil
      omega
    · have : csum d (d.p.length - 1) = listSum d.p := csum_last hd
      have hge : (1 : ℚ) / 2 ≤ (cumsums 0 d.p).getD (d.p.length - 1) 0 := by
        rw [csum] at this
        rw [this]
        have := hd.sum_lower
        rw [EPSILON] at this
        linarith
      exact decide_eq_true_eq.mpr hge
  refine ⟨hd.ne_nil, hd.exists_pos, ?_, ?_, ?_⟩
  · by_cases h1 : 1/2 < p0
    · exact ⟨0, by rw [hmed, if_pos h1]⟩
    · by_cases h2 : p0 = 1/2
      · exact ⟨1/2, by rw [hmed, if_neg h1, if_pos h2]⟩
      · rcases @firstIdx_isSome_of_exists (fun s => decide (1 / 2 ≤ s)) (cumsums 0 d.p)
          hexists_half with ⟨j, hj⟩
        exact ⟨(if (cumsums 0 d.p).getD j 0 = 1/2
            then ((2 * (0 + j) - 1 : ℕ) : ℚ) / 2 else ((0 + j : ℕ) : ℚ)),
          by rw [hmed, if_neg h1, if_neg h2, medianLoop_some d.p 0 j 0 hj]⟩
  · rcases invCdf_zero_spec hd with ⟨j, hj, -, -, -⟩
    exact ⟨j, hj⟩
  · by_cases h1 : 1/2 < p0
    · rw [hmed, hmedInt, if_pos h1, if_pos h1]
    · by_cases h2 : p0 = 1/2
      · rw [hmed, hmedInt, if_neg h1, if_neg h1, if_pos h2, if_pos h2]
      · rw [hmed, hmedInt, if_neg h1, if_neg h1, if_neg h2, if_neg h2]
        have hp0 : p0 < 1/2 :=
          lt_of_le_of_ne (le_of_not_lt h1) h2
        rcases @firstIdx_isSome_of_exists (fun s => decide (1 / 2 ≤ s)) (cumsums 0 d.p)
          hexists_half with ⟨j, hj⟩
        exact hfi j hj hp0

/-- Closed witness for C10 at the vector `[0, 0.75, 0.25, 0]`. -/
theorem C10_no_internal_aborts_witness :
    Valid ⟨4, [0, 3/4, 1/4, 0]⟩ ∧
      median ⟨4, [0, 3/4, 1/4, 0]⟩ = medianInt ⟨4, [0, 3/4, 1/4, 0]⟩ := by
  have hv : Valid ⟨4, [0, 3/4, 1/4, 0]⟩ :=
    ⟨rfl, by norm_num [is_probability_vector, pvCheck, EPSILON, abs_le]⟩
  exact ⟨hv, (C10_no_internal_aborts ⟨4, [0, 3/4, 1/4, 0]⟩ hv).2.2.2.2⟩

end Prob
